import Mathlib

/-!
Verification development for the GMeetSummarizer processing core
(`processor.py`).  The Python functions are shallowly embedded as Lean
definitions: times are rationals, strings are lists of characters,
fallible code returns `Option`/`Except`.  Each claim about the program is
stated and settled as a theorem about these definitions.
-/

/-- Text is modelled as a list of characters (Python `str`). -/
abbrev Label := List Char

/-! ## Character classes of the name regex (processor.py line 37)

The regex is
`^([A-ZÀ-Ý][a-zà-ÿ]*(?:['-][A-ZÀ-Ý][a-zà-ÿ]+)*\s)+[A-ZÀ-Ý][a-zà-ÿ]*(?:['-][A-ZÀ-Ý][a-zà-ÿ]+)*$`
used with `re.fullmatch`.  `À-Ý` is the code-point range U+00C0 to U+00DD
and `à-ÿ` is U+00E0 to U+00FF, taken literally as the pattern does. -/

/-- Uppercase class `[A-ZÀ-Ý]` of the regex. -/
def isUpperAlpha (c : Char) : Bool :=
  (decide (65 ≤ c.toNat) && decide (c.toNat ≤ 90)) ||
  (decide (0xC0 ≤ c.toNat) && decide (c.toNat ≤ 0xDD))

/-- Lowercase class `[a-zà-ÿ]` of the regex. -/
def isLowerAlpha (c : Char) : Bool :=
  (decide (97 ≤ c.toNat) && decide (c.toNat ≤ 122)) ||
  (decide (0xE0 ≤ c.toNat) && decide (c.toNat ≤ 0xFF))

/-- Joining class `['-]` of the regex: apostrophe (U+0027) or hyphen. -/
def isNameSep (c : Char) : Bool :=
  decide (c.toNat = 39) || decide (c.toNat = 45)

/-- Whitespace, for the regex class `\s` and for Python `str.strip`.
Python `\s` on `str` also matches a few code points above U+00FF; those
play no role in any claim and are omitted. -/
def isWsChar (c : Char) : Bool :=
  (decide (9 ≤ c.toNat) && decide (c.toNat ≤ 13)) ||
  (decide (28 ≤ c.toNat) && decide (c.toNat ≤ 32)) ||
  decide (c.toNat = 0x85) || decide (c.toNat = 0xA0)

/-! ## The name validator (`is_valid_name`, processor.py lines 35-37)

The four character classes above are pairwise disjoint, so the regex is
deterministic and is embedded as the equivalent finite automaton.  The
states correspond to positions in the pattern:
`tok0` — before a token (expects `[A-ZÀ-Ý]`);
`body` — inside `[a-zà-ÿ]*` after the capital of a token or after a
completed `['-][A-ZÀ-Ý][a-zà-ÿ]+` group (the two positions have
identical continuations and are merged);
`afterSep` — just after `['-]` (expects `[A-ZÀ-Ý]`);
`afterSepU` — after `['-][A-ZÀ-Ý]` (expects at least one `[a-zà-ÿ]`).
The flag records whether a `\s` separator has been consumed, i.e. whether
at least two tokens are present. -/

inductive NState
  | tok0
  | body
  | afterSep
  | afterSepU
deriving DecidableEq

open NState in
/-- Run of the deterministic automaton of the name regex. -/
def nameRun : List Char → NState → Bool → Bool
  | [], st, seen2 => (decide (st = body)) && seen2
  | c :: rest, st, seen2 =>
    match st with
    | tok0 => if isUpperAlpha c then nameRun rest body seen2 else false
    | body =>
      if isLowerAlpha c then nameRun rest body seen2
      else if isNameSep c then nameRun rest afterSep seen2
      else if isWsChar c then nameRun rest tok0 true
      else false
    | afterSep => if isUpperAlpha c then nameRun rest afterSepU seen2 else false
    | afterSepU => if isLowerAlpha c then nameRun rest body seen2 else false

/-- Embedding of `is_valid_name` (processor.py lines 35-37). -/
def is_valid_name (s : Label) : Bool :=
  nameRun s NState.tok0 false

/-! ## Declarative name shapes (for claim C8)

`JoinShape` renders `['-][A-ZÀ-Ý][a-zà-ÿ]+` (the joined word needs a
nonempty lowercase tail); `JoinShapeWeak` renders the claim wording, where
a joined word is any capitalized word, lowercase tail possibly empty. -/

/-- Condition that every character of a list is in the lowercase class. -/
def AllLower (ls : List Char) : Prop := ∀ c ∈ ls, isLowerAlpha c = true

/-- Shape of one hyphen/apostrophe-joined group as the regex demands it:
a separator, a capital, and at least one lowercase letter. -/
def JoinShape (p : List Char) : Prop :=
  ∃ s u l ls, isNameSep s = true ∧ isUpperAlpha u = true ∧
    isLowerAlpha l = true ∧ AllLower ls ∧ p = s :: u :: l :: ls

/-- Shape of one joined group as the claim words it: a separator followed
by any capitalized word (lowercase tail possibly empty). -/
def JoinShapeWeak (p : List Char) : Prop :=
  ∃ s u ls, isNameSep s = true ∧ isUpperAlpha u = true ∧
    AllLower ls ∧ p = s :: u :: ls

/-- Shape of one token: a capitalized word optionally joined (via
`JoinShape` groups) to further capitalized words. -/
def TokenShape (t : List Char) : Prop :=
  ∃ (u : Char) (ls : List Char) (ps : List (List Char)),
    isUpperAlpha u = true ∧ AllLower ls ∧
    (∀ p ∈ ps, JoinShape p) ∧ t = u :: (ls ++ ps.flatten)

/-- Shape of one token under the claim wording (`JoinShapeWeak` groups). -/
def TokenShapeWeak (t : List Char) : Prop :=
  ∃ (u : Char) (ls : List Char) (ps : List (List Char)),
    isUpperAlpha u = true ∧ AllLower ls ∧
    (∀ p ∈ ps, JoinShapeWeak p) ∧ t = u :: (ls ++ ps.flatten)

/-- Chains of `n` tokens separated by single whitespace characters. -/
inductive ChainTokens : List Char → ℕ → Prop
  | single {t : List Char} : TokenShape t → ChainTokens t 1
  | cons {t : List Char} {w : Char} {rest : List Char} {n : ℕ} :
      TokenShape t → isWsChar w = true → ChainTokens rest n →
      ChainTokens (t ++ w :: rest) (n + 1)

/-- Chains of `n` tokens in the weaker, claim-worded token shape. -/
inductive ChainTokensWeak : List Char → ℕ → Prop
  | single {t : List Char} : TokenShapeWeak t → ChainTokensWeak t 1
  | cons {t : List Char} {w : Char} {rest : List Char} {n : ℕ} :
      TokenShapeWeak t → isWsChar w = true → ChainTokensWeak rest n →
      ChainTokensWeak (t ++ w :: rest) (n + 1)

/-- Name shape exactly as the claim words it: at least two
whitespace-separated tokens of `TokenShapeWeak`. -/
def ClaimNameShape (cs : List Char) : Prop :=
  ∃ n, 2 ≤ n ∧ ChainTokensWeak cs n

/-- Name shape as the regex actually demands it: at least two
whitespace-separated tokens of `TokenShape`. -/
def NameShape (cs : List Char) : Prop :=
  ∃ n, 2 ≤ n ∧ ChainTokens cs n

/-! ## Data model

Times are rationals (Python floats hold second-resolution timestamps).
`Obs` is a `SpeakerObservation` `(timestamp, label)` tuple, `TWord` a
whisper word record `{"word", "start", "end"}`, `Seg` a transcript
segment boundary pair, `TLine` an assembled transcript line before the
final text rendering. -/

structure Obs where
  time : ℚ
  label : Label
deriving DecidableEq

structure TWord where
  start : ℚ
  stop : ℚ
  text : Label
deriving DecidableEq

structure Seg where
  start : ℚ
  stop : ℚ
deriving DecidableEq

structure TLine where
  time : ℚ
  speaker : Label
  text : Label
deriving DecidableEq

/-! ## Visual speaker sampler (`extract_speaker_labels`, lines 40-111)

The OCR engine, the video capture and the crop boxes are external; the
composite `try_ocr(primary) or try_ocr(secondary)` outcome for the frame
at index `i` is modelled as an oracle `ocr i : Option Label` (already
stripped, as `try_ocr` strips).  The loop itself — the timestamp
computation of lines 72-74, the `0`→`O` correction, name validation and
the carry-forward of `last_valid_speaker` — is embedded faithfully. -/

/-- Constant `VOICE_TIMESTAMP_OFFSET` (processor.py line 18). -/
def VOICE_TIMESTAMP_OFFSET : ℚ := 5 / 2

/-- Timestamp of the sample at frame `i` (processor.py lines 72-74):
`frame_idx / fps` with the latency offset subtracted, floored at `0`. -/
def sampleTimestamp (i : ℕ) (fps : ℚ) : ℚ :=
  max 0 ((i : ℚ) / fps - VOICE_TIMESTAMP_OFFSET)

/-- Workaround of line 90: every `0` becomes `O` before validation. -/
def replaceZeroWithO (s : Label) : Label :=
  s.map fun c => if c = '0' then 'O' else c

/-- One iteration of the sampling loop body (lines 84-99): given the
carry-forward state and the OCR outcome, the observations emitted for
this frame and the new carry-forward state.  Python treats an empty
string like a missing one (`if text:`). -/
def frameStep (lastValid : Option Label) (t : ℚ) (txt : Option Label) :
    List Obs × Option Label :=
  match txt with
  | some s =>
    if s ≠ [] then
      let s2 := replaceZeroWithO s
      if is_valid_name s2 then ([⟨t, s2⟩], some s2)
      else
        match lastValid with
        | some lv => ([⟨t, lv⟩], some lv)
        | none => ([], none)
    else
      match lastValid with
      | some lv => ([⟨t, lv⟩], some lv)
      | none => ([], none)
  | none =>
    match lastValid with
    | some lv => ([⟨t, lv⟩], some lv)
    | none => ([], none)

/-- The sampling loop (lines 65-107): `n` remaining reads, the next one
at check index `c` (frame index `c * skip`). -/
def rawTimelineAux (ocr : ℕ → Option Label) (fps : ℚ) (skip : ℕ) :
    ℕ → ℕ → Option Label → List Obs
  | 0, _, _ => []
  | n + 1, c, lv =>
    let t := sampleTimestamp (c * skip) fps
    let st := frameStep lv t (ocr (c * skip))
    st.1 ++ rawTimelineAux ocr fps skip n (c + 1) st.2

/-- Raw speaker timeline produced by `extract_speaker_labels` before the
final denoising call of line 111. -/
def rawTimeline (ocr : ℕ → Option Label) (fps : ℚ) (skip : ℕ) (n : ℕ) :
    List Obs :=
  rawTimelineAux ocr fps skip n 0 none

/-! ## Timeline denoiser (`filter_noisy_speakers`, lines 114-129) -/

/-- Keep-decision for the record at position `i` of the raw timeline
(lines 117-127): boundary records are kept; an interior record is kept
unless its label differs from both raw neighbours. -/
def noisyKeep (tl : List Obs) (i : ℕ) (r : Obs) : Bool :=
  if i = 0 then true
  else if i = tl.length - 1 then true
  else
    match tl[i-1]?, tl[i+1]? with
    | some p, some nx =>
      !(decide (r.label ≠ p.label) && decide (r.label ≠ nx.label))
    | _, _ => true

/-- Embedding of `filter_noisy_speakers` (lines 114-129). -/
def filter_noisy_speakers (tl : List Obs) : List Obs :=
  (tl.enum.filter fun q => noisyKeep tl q.1 q.2).map Prod.snd

/-! ## Speech interval segmenter (`extract_speech_intervals`, lines 132-158)

The source first computes a word-based `switch_points` list (lines
133-150: first word start, word starts after a silence gap, last word
end) — but line 156 builds `all_switch_points` from
`segment_switch_points` alone, so the word-based list never reaches the
returned intervals.  `extract_speech_intervals` below embeds what the
code returns; `pooledIntervals` further down embeds the construction the
specification describes, for comparison. -/

/-- Insertion into a strictly sorted list, skipping duplicates. -/
def insertPt (x : ℚ) : List ℚ → List ℚ
  | [] => [x]
  | y :: ys =>
    if x < y then x :: y :: ys
    else if x = y then y :: ys
    else y :: insertPt x ys

/-- Model of Python `sorted(set(xs))`: the strictly ascending
enumeration of the distinct values of `xs`. -/
def sortedDedup (xs : List ℚ) : List ℚ :=
  xs.foldr insertPt []

/-- Pairs of consecutive elements (line 158 builds one interval per
consecutive pair of switch points). -/
def consecutivePairs (l : List ℚ) : List (ℚ × ℚ) :=
  l.zip l.tail

/-- Switch points contributed by segment boundaries (lines 152-154). -/
def segmentSwitchPoints (segs : List Seg) : List ℚ :=
  (segs.map fun s => [s.start, s.stop]).flatten

/-- Embedding of `extract_speech_intervals` (lines 132-158): the value
the code actually returns, built from segment boundaries only. -/
def extract_speech_intervals (segs : List Seg) (_ws : List TWord) :
    List (ℚ × ℚ) :=
  consecutivePairs (sortedDedup (segmentSwitchPoints segs))

/-- Word starts that open a new interval after a silence gap, as the
specification words it: the gap since the previous word's end exceeds
the 2.0-second threshold. -/
def gapStarts : ℚ → List TWord → List ℚ
  | _, [] => []
  | prevEnd, w :: ws =>
    (if prevEnd + 2 < w.start then [w.start] else []) ++ gapStarts w.stop ws

/-- Word-derived switch points as the specification describes them: the
first word's start, every silence-gap start, and the last word's end. -/
def silenceSwitchPoints (ws : List TWord) : List ℚ :=
  match ws with
  | [] => []
  | w :: rest => w.start :: (gapStarts w.stop rest ++ [(rest.getLastD w).stop])

/-- Interval construction as the specification and claim C1 describe it:
the ascending duplicate-free union of both switch-point sources, paired
consecutively. -/
def pooledIntervals (segs : List Seg) (ws : List TWord) : List (ℚ × ℚ) :=
  consecutivePairs
    (sortedDedup (silenceSwitchPoints ws ++ segmentSwitchPoints segs))

/-! ## Interval speaker resolver (`get_majority_speaker`,
`assign_speakers_to_intervals`, lines 161-178)

Line 176 takes `list(set(...))` of the in-range labels; Python's set
order is unspecified, so the deduplicated list is modelled with
`List.dedup` (the claims only concern distinct-label sets of size zero or
one, where order is irrelevant).  `Counter.most_common(1)` on a list
returns the first element of maximal multiplicity in insertion order. -/

/-- Embedding of `get_majority_speaker` (lines 161-170). -/
def get_majority_speaker (speakers : List Label) : Option Label :=
  match speakers with
  | [] => none
  | [s] => some s
  | _ =>
    speakers.find? fun a =>
      speakers.all fun b => decide (speakers.count b ≤ speakers.count a)

/-- Distinct labels of the cleaned observations falling inside the
closed interval (line 176). -/
def labelsInRange (iv : ℚ × ℚ) (tl : List Obs) : List Label :=
  ((tl.filter fun s => decide (iv.1 ≤ s.time) && decide (s.time ≤ iv.2)).map
    Obs.label).dedup

/-- Speaker resolved for one interval (line 176-177). -/
def resolveInterval (iv : ℚ × ℚ) (tl : List Obs) : Option Label :=
  get_majority_speaker (labelsInRange iv tl)

/-- Embedding of `assign_speakers_to_intervals` (lines 173-178); the
Python dict keyed by interval tuples is the association list. -/
def assign_speakers_to_intervals (ivs : List (ℚ × ℚ)) (tl : List Obs) :
    List ((ℚ × ℚ) × Option Label) :=
  ivs.map fun iv => (iv, resolveInterval iv tl)

/-! ## Per-word speaker (`get_current_speaker`, lines 181-183)

`candidates[-1][1] if candidates else speaker_timeline[0][1]` — with an
empty timeline and no candidates, line 183 raises `IndexError`; the
embedding returns `none` in exactly that case. -/

/-- Embedding of `get_current_speaker` (lines 181-183).  The `ivs`
parameter is present in the source signature and unused there too. -/
def get_current_speaker (t : ℚ) (_ivs : List (ℚ × ℚ)) (tl : List Obs) :
    Option Label :=
  let candidates := tl.filter fun s => decide (s.time ≤ t)
  match candidates.getLast? with
  | some c => some c.label
  | none => tl.head?.map Obs.label

/-! ## Transcript assembler (`transcribe_with_speakers`, lines 222-244) -/

/-- Python `str.strip()`: leading and trailing whitespace removed. -/
def pyStrip (s : Label) : Label :=
  ((s.dropWhile isWsChar).reverse.dropWhile isWsChar).reverse

/-- The word loop of lines 227-244: state is the current speaker (Python
`current_speaker`, initially `None`), accumulated text, run start time
and the lines already flushed.  A `none` from `get_current_speaker`
(empty timeline) aborts the whole assembly, as the Python `IndexError`
does. -/
def assembleGo (ivs : List (ℚ × ℚ)) (tl : List Obs) :
    List TWord → Option Label → Label → ℚ → List TLine → Option (List TLine)
  | [], none, _, _, acc => some acc
  | [], some sp, txt, st, acc => some (acc ++ [⟨st, sp, pyStrip txt⟩])
  | w :: ws, cur, txt, st, acc =>
    match get_current_speaker w.start ivs tl with
    | none => none
    | some sp =>
      if cur = some sp then assembleGo ivs tl ws cur (txt ++ w.text) st acc
      else
        match cur with
        | none => assembleGo ivs tl ws (some sp) w.text w.start acc
        | some c =>
          assembleGo ivs tl ws (some sp) w.text w.start
            (acc ++ [⟨st, c, pyStrip txt⟩])

/-- Transcript lines assembled from the word stream (lines 222-244). -/
def assemble (words : List TWord) (ivs : List (ℚ × ℚ)) (tl : List Obs) :
    Option (List TLine) :=
  assembleGo ivs tl words none [] 0 []

/-- Concatenation of the texts of the assembled lines, in order. -/
def linesText (ls : List TLine) : Label :=
  (ls.map TLine.text).flatten

/-- Concatenation of the texts of the input words, in order. -/
def wordsText (ws : List TWord) : Label :=
  (ws.map TWord.text).flatten

/-! ## Summarizer adapter (`summarize_transcript`, lines 186-198) and the
surrounding workflow tail (lines 246-267)

The HTTP exchange is one application of an injected `http` function to
the request built from the settings; the response carries a status code
and the parse result of its body (`none` models a body `response.json()`
cannot parse).  `requests.raise_for_status` raises exactly for status
codes 400-599.  The chained lookup
`response.json()["choices"][0]["message"]["content"]` is `extractContent`;
any missing step raises, modelled as `malformedResponse`. -/

inductive Json
  | null
  | jbool (b : Bool)
  | jnum (q : ℚ)
  | jstr (s : Label)
  | jarr (xs : List Json)
  | jobj (fields : List (Label × Json))

/-- Dictionary lookup `j[k]`. -/
def Json.getField : Json → Label → Option Json
  | .jobj fs, k => (fs.find? fun f => decide (f.1 = k)).map fun f => f.2
  | _, _ => none

/-- Array lookup `j[i]`. -/
def Json.getIdx : Json → ℕ → Option Json
  | .jarr xs, i => xs[i]?
  | _, _ => none

/-- The fixed path `["choices"][0]["message"]["content"]` of line 198. -/
def extractContent (j : Json) : Option Json :=
  (((j.getField "choices".toList).bind fun c => c.getIdx 0).bind fun m =>
    m.getField "message".toList).bind fun m => m.getField "content".toList

structure HttpResponse where
  status : ℕ
  body : Option Json

/-- Error conditions surfaced by the embedded pipeline tail. -/
inductive PErr
  | indexError
  | httpError (code : ℕ)
  | malformedResponse
deriving DecidableEq

/-- Configuration subset of `DEFAULT_SETTINGS` used by the tail. -/
structure Settings where
  transcriptName : Label
  summaryName : Label
  summarize : Bool
  systemPrompt : Label
  promptPre : Label
  promptPost : Label
  vllmUrl : Label
  modelId : Label
deriving DecidableEq

structure HttpRequest where
  url : Label
  payload : Json

/-- Request construction of lines 187-196.  `format` on the prompt
template splices the transcript at its single `\x7b\x7d` placeholder. -/
def buildRequest (transcript : Label) (cfg : Settings) : HttpRequest :=
  { url := cfg.vllmUrl ++ "/v1/chat/completions".toList
    payload := Json.jobj
      [("model".toList, Json.jstr cfg.modelId),
       ("messages".toList, Json.jarr
         [Json.jobj [("role".toList, Json.jstr "system".toList),
                     ("content".toList, Json.jstr cfg.systemPrompt)],
          Json.jobj [("role".toList, Json.jstr "user".toList),
                     ("content".toList, Json.jstr
                       (cfg.promptPre ++ transcript ++ cfg.promptPost))]]),
       ("stream".toList, Json.jbool false)] }

/-- `requests.Response.raise_for_status`: error for 4xx and 5xx. -/
def raise_for_status (r : HttpResponse) : Except PErr Unit :=
  if 400 ≤ r.status ∧ r.status < 600 then .error (.httpError r.status)
  else .ok ()

/-- Embedding of `summarize_transcript` (lines 186-198): build the
payload, perform the single exchange, raise for a 4xx/5xx status, then
return the content field of the parsed body. -/
def summarize_transcript (transcript : Label) (cfg : Settings)
    (http : HttpRequest → HttpResponse) : Except PErr Json :=
  let r := http (buildRequest transcript cfg)
  match raise_for_status r with
  | .error e => .error e
  | .ok _ =>
    match r.body with
    | none => .error .malformedResponse
    | some j =>
      match extractContent j with
      | some v => .ok v
      | none => .error .malformedResponse

/-- The per-run artifact store: later writes shadow earlier ones. -/
inductive FileData
  | transcriptF (ls : List TLine)
  | summaryF (j : Json)

abbrev FS := List (Label × FileData)

/-- Write (prepend) one artifact. -/
def writeF (fs : FS) (p : Label) (d : FileData) : FS := (p, d) :: fs

/-- Read an artifact back. -/
def readF (fs : FS) (p : Label) : Option FileData :=
  (fs.find? fun e => decide (e.1 = p)).map fun e => e.2

/-- The transcript text sent to the summarizer (line 260):
newline-joined `speaker: text` renderings of the lines. -/
def fullTranscript (ls : List TLine) : Label :=
  (ls.map fun l => l.speaker ++ ": ".toList ++ l.text).intersperse
    [Char.ofNat 10] |>.flatten

/-- Embedding of the tail of `transcribe_with_speakers` (lines 220-267):
assemble the lines, write the transcript artifact, then optionally
summarize and write the summary artifact.  A failure inside
`summarize_transcript` propagates after the transcript write, exactly as
the Python exception does. -/
def transcribe_with_speakers (cfg : Settings) (tl : List Obs)
    (segs : List Seg) (words : List TWord)
    (http : HttpRequest → HttpResponse) (fs : FS) :
    FS × Except PErr Unit :=
  let ivs := extract_speech_intervals segs words
  match assemble words ivs tl with
  | none => (fs, .error .indexError)
  | some lines =>
    let fs1 := writeF fs cfg.transcriptName (.transcriptF lines)
    if cfg.summarize then
      match summarize_transcript (fullTranscript lines) cfg http with
      | .ok s => (writeF fs1 cfg.summaryName (.summaryF s), .ok ())
      | .error e => (fs1, .error e)
    else (fs1, .ok ())

/-! ## Helper lemmas -/

/-- Observations emitted by one loop iteration carry that iteration's
timestamp. -/
theorem frameStep_time (lv : Option Label) (t : ℚ) (txt : Option Label) :
    ∀ o ∈ (frameStep lv t txt).1, o.time = t := by
  intro o ho
  cases txt with
  | none =>
    cases lv with
    | none => simp [frameStep] at ho
    | some lv0 => simp [frameStep] at ho; simp [ho]
  | some s =>
    by_cases hs : s = []
    · cases lv with
      | none => simp [frameStep, hs] at ho
      | some lv0 => simp [frameStep, hs] at ho; simp [ho]
    · by_cases hv : is_valid_name (replaceZeroWithO s) = true
      · simp [frameStep, hs, hv] at ho; simp [ho]
      · cases lv with
        | none => simp [frameStep, hs, hv] at ho
        | some lv0 => simp [frameStep, hs, hv] at ho; simp [ho]

/-- Every observation of the raw sampling loop has a clamped sample
timestamp. -/
theorem rawTimelineAux_timestamps (ocr : ℕ → Option Label) (fps : ℚ)
    (skip : ℕ) :
    ∀ n c lv, ∀ o ∈ rawTimelineAux ocr fps skip n c lv,
      (∃ i, o.time = sampleTimestamp i fps) ∧ 0 ≤ o.time := by
  intro n
  induction n with
  | zero => intro c lv o ho; simp [rawTimelineAux] at ho
  | succ m ih =>
    intro c lv o ho
    rw [rawTimelineAux] at ho
    rcases List.mem_append.mp ho with h1 | h2
    · have ht := frameStep_time lv (sampleTimestamp (c * skip) fps)
        (ocr (c * skip)) o h1
      refine ⟨⟨c * skip, ht⟩, ?_⟩
      rw [ht]; exact le_max_left 0 _
    · exact ih (c + 1) _ o h2

/-- The `dedup` of a nonempty constant list is the one-element list. -/
theorem dedup_const {α : Type} [DecidableEq α] :
    ∀ (xs : List α) (l : α), xs ≠ [] → (∀ x ∈ xs, x = l) → xs.dedup = [l] := by
  intro xs
  induction xs with
  | nil => intro l h _; exact absurd rfl h
  | cons x rest ih =>
    intro l _ hall
    have hx : x = l := hall x (List.mem_cons_self x rest)
    cases rest with
    | nil => simp [hx]
    | cons y r2 =>
      have hmem : x ∈ y :: r2 := by
        have hy : y = l := hall y (by simp)
        rw [hx, ← hy]; exact List.mem_cons_self y r2
      rw [List.dedup_cons_of_mem hmem]
      exact ih l (by simp) fun z hz => hall z (List.mem_cons_of_mem x hz)

/-! ## Claim C3 — empty cleaned timeline

`get_current_speaker` indexes `speaker_timeline[0]` when no candidate
exists; with an empty timeline this raises `IndexError`, so assembly
fails instead of producing a degraded transcript. -/

/-- Claim C3 counterexample: with a non-empty word list and an empty
cleaned timeline the assembler does not produce a transcript — it fails
(the embedded `none`, an `IndexError` in the source). -/
theorem assemble_emptyTimeline_counterexample :
    assemble [⟨0, 1, "Hi".toList⟩] [] [] = none := by decide

/-- Claim C3 (amended): for every non-empty word list and any interval
list, assembly over the empty cleaned timeline fails with the index
error; no transcript lines are produced. -/
theorem assemble_emptyTimeline (ws : List TWord) (ivs : List (ℚ × ℚ))
    (h : ws ≠ []) : assemble ws ivs [] = none := by
  cases ws with
  | nil => exact absurd rfl h
  | cons w rest =>
    simp [assemble, assembleGo, get_current_speaker]

/-- Witness for `assemble_emptyTimeline` at a concrete input. -/
theorem assemble_emptyTimeline_witness :
    ([⟨0, 1, "Hi".toList⟩] : List TWord) ≠ [] ∧
      assemble [⟨0, 1, "Hi".toList⟩] [(0, 1)] [] = none :=
  ⟨by decide, assemble_emptyTimeline [⟨0, 1, "Hi".toList⟩] [(0, 1)]
    (by decide)⟩

/-! ## Claim C6 — interval speaker resolution -/

/-- Claim C6: the resolver collects the distinct labels of cleaned
observations with timestamp inside the closed interval; with no
observation in range it yields `none`, and with exactly one distinct
label it yields that label. -/
theorem resolveInterval_empty_single (iv : ℚ × ℚ) (tl : List Obs) :
    ((∀ o ∈ tl, iv.1 ≤ o.time → o.time ≤ iv.2 → False) →
      resolveInterval iv tl = none) ∧
    (∀ l, (∃ o ∈ tl, iv.1 ≤ o.time ∧ o.time ≤ iv.2) →
      (∀ o ∈ tl, iv.1 ≤ o.time → o.time ≤ iv.2 → o.label = l) →
      resolveInterval iv tl = some l) := by
  constructor
  · intro hnone
    have hf : tl.filter (fun s => decide (iv.1 ≤ s.time) &&
        decide (s.time ≤ iv.2)) = [] := by
      rw [List.filter_eq_nil_iff]
      intro o ho
      simp only [Bool.and_eq_true, decide_eq_true_eq, not_and]
      intro h1 h2
      exact hnone o ho h1 h2
    simp [resolveInterval, labelsInRange, hf, get_majority_speaker]
  · intro l hex hall
    have hlabs : labelsInRange iv tl = [l] := by
      apply dedup_const
      · rcases hex with ⟨o, ho, h1, h2⟩
        have : o ∈ tl.filter (fun s => decide (iv.1 ≤ s.time) &&
            decide (s.time ≤ iv.2)) := by
          rw [List.mem_filter]
          exact ⟨ho, by simp [h1, h2]⟩
        intro hc
        rw [List.map_eq_nil_iff] at hc
        rw [hc] at this
        exact absurd this (List.not_mem_nil o)
      · intro x hx
        rcases List.mem_map.mp hx with ⟨o, ho, rfl⟩
        rcases List.mem_filter.mp ho with ⟨hm, hcond⟩
        simp only [Bool.and_eq_true, decide_eq_true_eq] at hcond
        exact hall o hm hcond.1 hcond.2
    rw [resolveInterval, hlabs]
    rfl

/-- Witness for `resolveInterval_empty_single` at a concrete input. -/
theorem resolveInterval_empty_single_witness :
    (∃ o ∈ ([⟨0, "Ab".toList⟩] : List Obs), (0:ℚ) ≤ o.time ∧ o.time ≤ 1) ∧
      resolveInterval (0, 1) [⟨0, "Ab".toList⟩] = some "Ab".toList :=
  ⟨by decide,
    (resolveInterval_empty_single (0, 1) [⟨0, "Ab".toList⟩]).2
      "Ab".toList (by decide) (by decide)⟩

/-! ## Claim C9 — sampler timestamps -/

/-- Claim C9: every observation in the raw timeline carries a timestamp
of the form `frame_index / fps` minus `VOICE_TIMESTAMP_OFFSET` floored
at `0` (that is, `sampleTimestamp`), and hence is nonnegative. -/
theorem rawTimeline_timestamps (ocr : ℕ → Option Label) (fps : ℚ)
    (skip n : ℕ) :
    ∀ o ∈ rawTimeline ocr fps skip n,
      (∃ i, o.time = sampleTimestamp i fps) ∧ 0 ≤ o.time := by
  intro o ho
  exact rawTimelineAux_timestamps ocr fps skip n 0 none o ho

/-- Witness for `rawTimeline_timestamps` at a concrete input. -/
theorem rawTimeline_timestamps_witness :
    (⟨0, "Ab Cd".toList⟩ : Obs) ∈
        rawTimeline (fun _ => some "Ab Cd".toList) 1 1 1 ∧
      ((∃ i, (⟨0, "Ab Cd".toList⟩ : Obs).time = sampleTimestamp i 1) ∧
        0 ≤ (⟨0, "Ab Cd".toList⟩ : Obs).time) := by
  have hv : is_valid_name (replaceZeroWithO "Ab Cd".toList) = true := by
    decide
  have ht : sampleTimestamp 0 1 = 0 := by
    norm_num [sampleTimestamp, VOICE_TIMESTAMP_OFFSET]
  have hmem : (⟨0, "Ab Cd".toList⟩ : Obs) ∈
      rawTimeline (fun _ => some "Ab Cd".toList) 1 1 1 := by
    simp +decide [rawTimeline, rawTimelineAux, frameStep, ht]
  exact ⟨hmem,
    rawTimeline_timestamps (fun _ => some "Ab Cd".toList) 1 1 1
      ⟨0, "Ab Cd".toList⟩ hmem⟩

/-! ## Claim C1 — the switch points the code actually uses

The specification describes pooling the word-derived silence-gap switch
points with the segment boundaries; the code computes the word-derived
list (lines 133-150) but line 156 sorts and deduplicates
`segment_switch_points` alone, so the returned intervals ignore the
words entirely.  The input below separates the two constructions. -/

/-- Claim C1 divergence: on segments `[(0,6)]` and words
`[(0,1),(5,6)]` (a silence gap of 4 s), the code returns the single
segment-boundary interval `(0,6)` while the pooled construction the
claim describes yields `[(0,5),(5,6)]`. -/
theorem extract_speech_intervals_divergence :
    extract_speech_intervals [⟨0, 6⟩] [⟨0, 1, []⟩, ⟨5, 6, []⟩] = [(0, 6)] ∧
    pooledIntervals [⟨0, 6⟩] [⟨0, 1, []⟩, ⟨5, 6, []⟩] = [(0, 5), (5, 6)] ∧
    ¬ ([((0:ℚ), (6:ℚ))] = [((0:ℚ), (5:ℚ)), (5, 6)]) := by
  refine ⟨by decide, ?_, by decide⟩
  norm_num [pooledIntervals, silenceSwitchPoints, gapStarts, sortedDedup,
    segmentSwitchPoints, insertPt, consecutivePairs]

/-! ## Claim C4 — the denoiser -/

/-- If the last element of a list satisfies the filter predicate, the
filtered list ends with it. -/
theorem filter_getLast_keep {α : Type} (p : α → Bool) :
    ∀ (L : List α) (h : L ≠ []), p (L.getLast h) = true →
      (L.filter p).getLast? = some (L.getLast h) := by
  intro L
  induction L with
  | nil => intro h; exact absurd rfl h
  | cons a L2 ih =>
    intro h hp
    cases L2 with
    | nil => simp_all [List.filter]
    | cons b L3 =>
      have hne : b :: L3 ≠ [] := by simp
      have hlast : (a :: b :: L3).getLast h = (b :: L3).getLast hne :=
        List.getLast_cons hne
      have hp2 : p ((b :: L3).getLast hne) = true := by rwa [hlast] at hp
      have ihh := ih hne hp2
      have hfne : (b :: L3).filter p ≠ [] := by
        intro hc
        rw [hc] at ihh
        simp at ihh
      rw [hlast]
      rw [List.filter_cons]
      by_cases hpa : p a = true
      · rw [if_pos hpa]
        cases hfc : (b :: L3).filter p with
        | nil => exact absurd hfc hfne
        | cons c M =>
          rw [hfc] at ihh
          rw [List.getLast?_cons_cons]
          exact ihh
      · rw [if_neg hpa]
        exact ihh

/-- The boundary keep-decisions of the denoiser are `true`. -/
theorem noisyKeep_boundary (tl : List Obs) (r : Obs) :
    noisyKeep tl 0 r = true ∧ noisyKeep tl (tl.length - 1) r = true := by
  constructor
  · simp [noisyKeep]
  · unfold noisyKeep
    by_cases h0 : tl.length - 1 = 0
    · rw [if_pos h0]
    · rw [if_neg h0, if_pos rfl]

/-- Claim C4: the denoiser output is a subsequence of the raw timeline
in the original order, its first and last entries agree with the raw
timeline's, and the keep-decision discards exactly the interior records
whose label differs from both raw neighbours. -/
theorem filter_noisy_speakers_spec (tl : List Obs) :
    List.Sublist (filter_noisy_speakers tl) tl ∧
    (filter_noisy_speakers tl).head? = tl.head? ∧
    (filter_noisy_speakers tl).getLast? = tl.getLast? ∧
    (∀ i r p nx, tl[i]? = some r → tl[i-1]? = some p →
      tl[i+1]? = some nx → 0 < i →
      (noisyKeep tl i r = false ↔
        (r.label ≠ p.label ∧ r.label ≠ nx.label))) := by
  refine ⟨?_, ?_, ?_, ?_⟩
  · have h1 : List.Sublist
        (tl.enum.filter fun q => noisyKeep tl q.1 q.2) tl.enum :=
      List.filter_sublist _
    have h2 := h1.map Prod.snd
    rwa [List.enum_map_snd] at h2
  · cases tl with
    | nil => rfl
    | cons a rest =>
      rw [filter_noisy_speakers, List.enum_cons, List.filter_cons]
      have : noisyKeep (a :: rest) 0 a = true :=
        (noisyKeep_boundary (a :: rest) a).1
      rw [if_pos this]
      simp
  · cases htl : tl with
    | nil => rfl
    | cons a rest =>
      have hne : tl ≠ [] := by rw [htl]; simp
      have hEne : tl.enum ≠ [] := by
        rw [Ne, List.enum_eq_nil]
        exact hne
      have hlen : 0 < tl.length := List.length_pos.mpr hne
      have hidx : tl.length - 1 < tl.length := by omega
      have hEidx : tl.enum.length - 1 < tl.enum.length := by
        rw [List.enum_length]; omega
      have hElast : tl.enum.getLast hEne = (tl.length - 1, tl.getLast hne) := by
        rw [List.getLast_eq_getElem tl.enum hEne, List.getElem_enum]
        simp [List.enum_length, List.getLast_eq_getElem]
      have hkeep : noisyKeep tl (tl.enum.getLast hEne).1
          (tl.enum.getLast hEne).2 = true := by
        rw [hElast]
        exact (noisyKeep_boundary tl (tl.getLast hne)).2
      have h3 := filter_getLast_keep (fun q => noisyKeep tl q.1 q.2)
        tl.enum hEne hkeep
      rw [← htl, filter_noisy_speakers, List.getLast?_map, h3, hElast]
      rw [List.getLast?_eq_getLast tl hne]
      rfl
  · intro i r p nx hr hp hnx hi
    have hi1 : i + 1 < tl.length := by
      rw [List.getElem?_eq_some] at hnx
      exact hnx.1
    have hne0 : ¬ (i = 0) := by omega
    have hneL : ¬ (i = tl.length - 1) := by omega
    rw [noisyKeep, if_neg hne0, if_neg hneL, hp, hnx]
    constructor
    · intro hfalse
      by_contra hc
      rw [not_and_or] at hc
      rcases hc with hc | hc
      · simp only [not_not] at hc
        simp [hc] at hfalse
      · simp only [not_not] at hc
        simp [hc] at hfalse
    · intro ⟨h1, h2⟩
      simp [h1, h2]

/-- Witness for `filter_noisy_speakers_spec` at a concrete input: the
middle flicker `Cd` between two `Ab` records is removed. -/
theorem filter_noisy_speakers_spec_witness :
    filter_noisy_speakers
        [⟨0, "Ab".toList⟩, ⟨1, "Cd".toList⟩, ⟨2, "Ab".toList⟩] =
      [⟨0, "Ab".toList⟩, ⟨2, "Ab".toList⟩] ∧
    (noisyKeep [⟨0, "Ab".toList⟩, ⟨1, "Cd".toList⟩, ⟨2, "Ab".toList⟩] 1
        ⟨1, "Cd".toList⟩ = false ↔
      (("Cd".toList ≠ "Ab".toList) ∧ ("Cd".toList ≠ "Ab".toList))) :=
  ⟨by decide,
    (filter_noisy_speakers_spec
      [⟨0, "Ab".toList⟩, ⟨1, "Cd".toList⟩, ⟨2, "Ab".toList⟩]).2.2.2
      1 ⟨1, "Cd".toList⟩ ⟨0, "Ab".toList⟩ ⟨2, "Ab".toList⟩
      (by decide) (by decide) (by decide) (by decide)⟩

/-! ## Claim C7 — per-word speaker attribution

The cleaned timeline's timestamps are nondecreasing by construction of
the sampling loop (the spec's data model states this invariant), so the
claim is stated for pairwise-sorted timelines: the last candidate in
list order is then a most recent one. -/

/-- In a timeline sorted by time, every member's time is at most the
last member's time. -/
theorem getLast_time_max :
    ∀ (l : List Obs), l.Pairwise (fun a b => a.time ≤ b.time) →
      ∀ (h : l ≠ []) a, a ∈ l → a.time ≤ (l.getLast h).time := by
  intro l
  induction l with
  | nil => intro _ h; exact absurd rfl h
  | cons x rest ih =>
    intro hp h a ha
    rcases List.pairwise_cons.mp hp with ⟨hx, hrest⟩
    cases rest with
    | nil =>
      rcases List.mem_singleton.mp ha with rfl
      simp
    | cons c r =>
      have hne2 : c :: r ≠ [] := by simp
      rw [List.getLast_cons hne2]
      rcases List.mem_cons.mp ha with rfl | ha2
      · exact hx _ (List.getLast_mem hne2)
      · exact ih hrest hne2 a ha2

/-- Claim C7: with a non-empty, time-sorted cleaned timeline, the
attributed speaker is the label of a most recent observation whose
timestamp is at most the word start; if every observation is strictly
later, it is the first observation's label. -/
theorem get_current_speaker_spec (t : ℚ) (ivs : List (ℚ × ℚ))
    (tl : List Obs) (hne : tl ≠ [])
    (hsort : tl.Pairwise fun a b => a.time ≤ b.time) :
    ((∃ o ∈ tl, o.time ≤ t) →
      ∃ o ∈ tl, o.time ≤ t ∧ get_current_speaker t ivs tl = some o.label ∧
        ∀ o2 ∈ tl, o2.time ≤ t → o2.time ≤ o.time) ∧
    ((∀ o ∈ tl, t < o.time) →
      get_current_speaker t ivs tl = some (tl.head hne).label) := by
  constructor
  · intro hex
    rcases hex with ⟨o0, ho0, ht0⟩
    have hC : o0 ∈ tl.filter fun s => decide (s.time ≤ t) :=
      List.mem_filter.mpr ⟨ho0, by simpa using ht0⟩
    have hCne : (tl.filter fun s => decide (s.time ≤ t)) ≠ [] := by
      intro hc
      rw [hc] at hC
      exact absurd hC (List.not_mem_nil o0)
    set C := tl.filter fun s => decide (s.time ≤ t) with hCdef
    refine ⟨C.getLast hCne, ?_, ?_, ?_, ?_⟩
    · exact (List.mem_filter.mp (List.getLast_mem hCne)).1
    · have := (List.mem_filter.mp (List.getLast_mem hCne)).2
      simpa using this
    · rw [get_current_speaker]
      rw [List.getLast?_eq_getLast C hCne]
    · intro o2 ho2 ht2
      have hmem : o2 ∈ C :=
        List.mem_filter.mpr ⟨ho2, by simpa using ht2⟩
      exact getLast_time_max C (List.Pairwise.filter _ hsort) hCne o2 hmem
  · intro hall
    have hC : (tl.filter fun s => decide (s.time ≤ t)) = [] := by
      rw [List.filter_eq_nil_iff]
      intro o ho
      simpa using not_le.mpr (hall o ho)
    rw [get_current_speaker, hC]
    simp [List.head?_eq_head hne]

/-- Witness for `get_current_speaker_spec` at a concrete input. -/
theorem get_current_speaker_spec_witness :
    (∃ o ∈ ([⟨0, "Ab".toList⟩] : List Obs), o.time ≤ 1) ∧
      ∃ o ∈ ([⟨0, "Ab".toList⟩] : List Obs), o.time ≤ 1 ∧
        get_current_speaker 1 [] [⟨0, "Ab".toList⟩] = some o.label ∧
        ∀ o2 ∈ ([⟨0, "Ab".toList⟩] : List Obs), o2.time ≤ 1 →
          o2.time ≤ o.time :=
  ⟨by decide,
    (get_current_speaker_spec 1 [] [⟨0, "Ab".toList⟩] (by decide)
      (by simp)).1 (by decide)⟩

/-! ## Claim C5 — interval ordering, disjointness and coverage -/

/-- Membership in an `insertPt` result. -/
theorem insertPt_mem (x : ℚ) :
    ∀ (l : List ℚ) (a : ℚ), a ∈ insertPt x l ↔ a = x ∨ a ∈ l := by
  intro l
  induction l with
  | nil => intro a; simp [insertPt]
  | cons y ys ih =>
    intro a
    by_cases h1 : x < y
    · simp [insertPt, h1]
    · by_cases h2 : x = y
      · subst h2
        simp only [insertPt, if_neg h1, if_pos rfl]
        constructor
        · intro h; exact Or.inr h
        · intro h
          rcases h with h | h
          · rw [h]; exact List.mem_cons_self x ys
          · exact h
      · simp only [insertPt, if_neg h1, if_neg h2, List.mem_cons, ih]
        tauto

/-- The head of an `insertPt` result is the inserted point or the old
head. -/
theorem insertPt_head (x : ℚ) :
    ∀ (l : List ℚ), (insertPt x l).head? = some x ∨
      (insertPt x l).head? = l.head? := by
  intro l
  cases l with
  | nil => left; rfl
  | cons y ys =>
    by_cases h1 : x < y
    · left; simp [insertPt, h1]
    · by_cases h2 : x = y
      · right; simp [insertPt, h1, h2]
      · right; simp [insertPt, h1, h2]

/-- `insertPt` preserves strict sortedness. -/
theorem insertPt_chain (x : ℚ) :
    ∀ (l : List ℚ), List.Chain' (· < ·) l →
      List.Chain' (· < ·) (insertPt x l) := by
  intro l
  induction l with
  | nil => intro _; simp [insertPt]
  | cons y ys ih =>
    intro hch
    rcases List.chain'_cons'.mp hch with ⟨hy, hys⟩
    by_cases h1 : x < y
    · rw [insertPt, if_pos h1]
      exact List.chain'_cons'.mpr ⟨fun b hb => by
        rw [List.head?_cons, Option.mem_def, Option.some.injEq] at hb
        rw [← hb]; exact h1, hch⟩
    · by_cases h2 : x = y
      · rw [insertPt, if_neg h1, if_pos h2]
        exact hch
      · rw [insertPt, if_neg h1, if_neg h2]
        have hyx : y < x := lt_of_le_of_ne (not_lt.mp h1) fun h => h2 h.symm
        refine List.chain'_cons'.mpr ⟨?_, ih hys⟩
        intro b hb
        rcases insertPt_head x ys with hh | hh
        · rw [hh, Option.mem_def, Option.some.injEq] at hb
          rw [← hb]; exact hyx
        · rw [hh] at hb
          exact hy b hb

/-- `sortedDedup` outputs are strictly ascending. -/
theorem sortedDedup_chain (xs : List ℚ) :
    List.Chain' (· < ·) (sortedDedup xs) := by
  induction xs with
  | nil => simp [sortedDedup]
  | cons x rest ih => exact insertPt_chain x _ ih

/-- `sortedDedup` preserves membership. -/
theorem sortedDedup_mem (xs : List ℚ) (a : ℚ) :
    a ∈ sortedDedup xs ↔ a ∈ xs := by
  induction xs with
  | nil => simp [sortedDedup]
  | cons x rest ih =>
    rw [sortedDedup, List.foldr_cons]
    rw [insertPt_mem x _ a]
    rw [List.mem_cons]
    constructor
    · intro h; rcases h with h | h
      · exact Or.inl h
      · exact Or.inr (ih.mp h)
    · intro h; rcases h with h | h
      · exact Or.inl h
      · exact Or.inr (ih.mpr h)

/-- In a strictly ascending list the head is a lower bound. -/
theorem chain_head_le :
    ∀ (a : ℚ) (l : List ℚ), List.Chain' (· < ·) (a :: l) →
      ∀ u ∈ a :: l, a ≤ u := by
  intro a l
  induction l generalizing a with
  | nil =>
    intro _ u hu
    rcases List.mem_singleton.mp hu with rfl
    exact le_refl u
  | cons b r ih =>
    intro hch u hu
    rcases List.chain'_cons.mp hch with ⟨hab, hbr⟩
    rcases List.mem_cons.mp hu with rfl | hu2
    · exact le_refl u
    · exact le_trans (le_of_lt hab) (ih b hbr u hu2)

/-- Unfolding equation of `consecutivePairs` on two-element heads. -/
theorem consecutivePairs_cons (a b : ℚ) (rest : List ℚ) :
    consecutivePairs (a :: b :: rest) =
      (a, b) :: consecutivePairs (b :: rest) := rfl

/-- The head of a strictly ascending list bounds every produced pair. -/
theorem consecutivePairs_lb :
    ∀ (b : ℚ) (rest : List ℚ), List.Chain' (· < ·) (b :: rest) →
      ∀ iv ∈ consecutivePairs (b :: rest), b ≤ iv.1 := by
  intro b rest
  induction rest generalizing b with
  | nil => intro _ iv hiv; simp [consecutivePairs] at hiv
  | cons c r ih =>
    intro hch iv hiv
    rcases List.chain'_cons.mp hch with ⟨hbc, hcr⟩
    rw [consecutivePairs_cons, List.mem_cons] at hiv
    rcases hiv with rfl | hiv2
    · exact le_refl b
    · exact le_trans (le_of_lt hbc) (ih c hcr iv hiv2)

/-- Pairs of consecutive members of a strictly ascending list are
strictly ascending in their left ends and interior-disjoint. -/
theorem consecutivePairs_pairwise :
    ∀ (l : List ℚ), List.Chain' (· < ·) l →
      (consecutivePairs l).Pairwise fun a b => a.1 < b.1 ∧ a.2 ≤ b.1 := by
  intro l
  match l with
  | [] => intro _; simp [consecutivePairs]
  | [x] => intro _; simp [consecutivePairs]
  | a :: b :: rest =>
    intro hch
    rcases List.chain'_cons.mp hch with ⟨hab, hbrest⟩
    rw [consecutivePairs_cons]
    refine List.pairwise_cons.mpr ⟨?_, consecutivePairs_pairwise _ hbrest⟩
    intro iv hiv
    have hb := consecutivePairs_lb b rest hbrest iv hiv
    exact ⟨lt_of_lt_of_le hab hb, hb⟩

/-- Coverage: a point between two members of a strictly ascending list
of length at least two lies inside one of the consecutive pairs. -/
theorem consecutivePairs_cover :
    ∀ (l : List ℚ), List.Chain' (· < ·) l →
      ∀ (x u v : ℚ), u ∈ l → u ≤ x → v ∈ l → x ≤ v → 2 ≤ l.length →
        ∃ iv ∈ consecutivePairs l, iv.1 ≤ x ∧ x ≤ iv.2 := by
  intro l
  match l with
  | [] => intro _ x u v hu; simp at hu
  | [w] => intro _ x u v _ _ _ _ hlen; simp at hlen
  | a :: b :: rest =>
    intro hch x u v hu hux hv hxv _
    by_cases hxb : x ≤ b
    · refine ⟨(a, b), List.mem_cons_self _ _, ?_, hxb⟩
      exact le_trans (chain_head_le a (b :: rest) hch u hu) hux
    · push_neg at hxb
      rcases List.chain'_cons.mp hch with ⟨hab, hbrest⟩
      have hvmem : v ∈ b :: rest := by
        rcases List.mem_cons.mp hv with rfl | h
        · exact absurd hxv (not_le.mpr (lt_trans hab hxb))
        · exact h
      have hrne : rest ≠ [] := by
        intro hr
        rw [hr] at hvmem
        rcases List.mem_singleton.mp hvmem with rfl
        exact absurd hxv (not_le.mpr hxb)
      have hlen2 : 2 ≤ (b :: rest).length := by
        cases rest with
        | nil => exact absurd rfl hrne
        | cons c r => simp
      rcases consecutivePairs_cover (b :: rest) hbrest x b v
        (List.mem_cons_self _ _) (le_of_lt hxb) hvmem hxv hlen2 with
        ⟨iv, hiv, hiv2⟩
      exact ⟨iv, List.mem_cons_of_mem _ hiv, hiv2⟩

/-- Segment boundaries are switch points. -/
theorem mem_segmentSwitchPoints (segs : List Seg) (s : Seg)
    (hs : s ∈ segs) :
    s.start ∈ segmentSwitchPoints segs ∧
      s.stop ∈ segmentSwitchPoints segs := by
  constructor
  · rw [segmentSwitchPoints, List.mem_flatten]
    exact ⟨[s.start, s.stop], List.mem_map.mpr ⟨s, hs, rfl⟩, by simp⟩
  · rw [segmentSwitchPoints, List.mem_flatten]
    exact ⟨[s.start, s.stop], List.mem_map.mpr ⟨s, hs, rfl⟩, by simp⟩

/-- Claim C5 counterexample: with the single degenerate segment `(1,1)`
and a word starting at `1` inside it, the produced interval list is
empty, so the word's start time is not covered. -/
theorem extract_speech_intervals_cover_counterexample :
    (∀ w ∈ ([⟨1, 1, []⟩] : List TWord), ∃ s ∈ ([⟨1, 1⟩] : List Seg),
      s.start ≤ w.start ∧ w.start ≤ s.stop) ∧
    ¬ (∀ w ∈ ([⟨1, 1, []⟩] : List TWord),
        ∃ iv ∈ extract_speech_intervals [⟨1, 1⟩] [⟨1, 1, []⟩],
          iv.1 ≤ w.start ∧ w.start ≤ iv.2) := by decide

/-- Claim C5 (amended): the produced intervals are sorted strictly
ascending by start and interior-disjoint; and provided every word start
lies inside some segment and the deduplicated switch-point list has at
least two entries, every word start is covered by some interval. -/
theorem extract_speech_intervals_spec (segs : List Seg) (ws : List TWord) :
    (extract_speech_intervals segs ws).Pairwise
      (fun a b => a.1 < b.1 ∧ a.2 ≤ b.1) ∧
    ((∀ w ∈ ws, ∃ s ∈ segs, s.start ≤ w.start ∧ w.start ≤ s.stop) →
      2 ≤ (sortedDedup (segmentSwitchPoints segs)).length →
      ∀ w ∈ ws, ∃ iv ∈ extract_speech_intervals segs ws,
        iv.1 ≤ w.start ∧ w.start ≤ iv.2) := by
  constructor
  · exact consecutivePairs_pairwise _
      (sortedDedup_chain (segmentSwitchPoints segs))
  · intro hin hlen w hw
    rcases hin w hw with ⟨s, hs, h1, h2⟩
    rcases mem_segmentSwitchPoints segs s hs with ⟨hst, hsp⟩
    exact consecutivePairs_cover _
      (sortedDedup_chain (segmentSwitchPoints segs)) w.start s.start s.stop
      ((sortedDedup_mem _ _).mpr hst) h1
      ((sortedDedup_mem _ _).mpr hsp) h2 hlen

/-- Witness for `extract_speech_intervals_spec` at a concrete input. -/
theorem extract_speech_intervals_spec_witness :
    (∀ w ∈ ([⟨1, 2, []⟩] : List TWord), ∃ s ∈ ([⟨0, 6⟩] : List Seg),
      s.start ≤ w.start ∧ w.start ≤ s.stop) ∧
    2 ≤ (sortedDedup (segmentSwitchPoints [⟨0, 6⟩])).length ∧
    ∀ w ∈ ([⟨1, 2, []⟩] : List TWord),
      ∃ iv ∈ extract_speech_intervals [⟨0, 6⟩] [⟨1, 2, []⟩],
        iv.1 ≤ w.start ∧ w.start ≤ iv.2 :=
  ⟨by decide, by decide,
    (extract_speech_intervals_spec [⟨0, 6⟩] [⟨1, 2, []⟩]).2
      (by decide) (by decide)⟩

/-! ## Claim C2 — transcript text round-trip

Line 235/244 applies `str.strip()` to each flushed run, so the
character-for-character round-trip fails whenever a run's concatenated
text has leading or trailing whitespace (whisper words typically carry a
leading space).  What survives: stripping only ever deletes whitespace,
so the assembled text is a subsequence of the word-text concatenation
with identical non-whitespace content. -/

/-- `pyStrip` yields a subsequence. -/
theorem pyStrip_sublist (s : Label) : List.Sublist (pyStrip s) s := by
  have h1 : List.Sublist (s.dropWhile isWsChar) s :=
    List.dropWhile_sublist _
  have h2 : List.Sublist ((s.dropWhile isWsChar).reverse.dropWhile isWsChar)
      (s.dropWhile isWsChar).reverse := List.dropWhile_sublist _
  have h3 := h2.reverse
  rw [List.reverse_reverse] at h3
  exact h3.trans h1

/-- `dropWhile` on the whitespace class preserves the non-whitespace
characters. -/
theorem filter_dropWhile_ws :
    ∀ (l : Label), (l.dropWhile isWsChar).filter (fun c => !isWsChar c) =
      l.filter fun c => !isWsChar c := by
  intro l
  induction l with
  | nil => rfl
  | cons c r ih =>
    by_cases hc : isWsChar c = true
    · rw [List.dropWhile_cons_of_pos hc, ih, List.filter_cons]
      simp [hc]
    · rw [List.dropWhile_cons_of_neg hc]

/-- `pyStrip` preserves the non-whitespace characters. -/
theorem pyStrip_filter (s : Label) :
    (pyStrip s).filter (fun c => !isWsChar c) =
      s.filter fun c => !isWsChar c := by
  rw [pyStrip, List.filter_reverse, filter_dropWhile_ws,
    List.filter_reverse, filter_dropWhile_ws]
  rw [List.reverse_reverse]

/-- With a non-empty timeline, `get_current_speaker` always yields a
label. -/
theorem get_current_speaker_isSome (t : ℚ) (ivs : List (ℚ × ℚ))
    (tl : List Obs) (htl : tl ≠ []) :
    ∃ sp, get_current_speaker t ivs tl = some sp := by
  rw [get_current_speaker]
  cases hc : (tl.filter fun s => decide (s.time ≤ t)).getLast? with
  | some c => exact ⟨c.label, rfl⟩
  | none =>
    cases htl2 : tl with
    | nil => exact absurd htl2 htl
    | cons a r => exact ⟨a.label, rfl⟩

/-- Unfolding of one assembly step once the word's speaker is known. -/
theorem assembleGo_cons (ivs : List (ℚ × ℚ)) (tl : List Obs) (w : TWord)
    (ws2 : List TWord) (cur : Option Label) (txt : Label) (st : ℚ)
    (acc : List TLine) (sp : Label)
    (hsp : get_current_speaker w.start ivs tl = some sp) :
    assembleGo ivs tl (w :: ws2) cur txt st acc =
      if cur = some sp then
        assembleGo ivs tl ws2 cur (txt ++ w.text) st acc
      else
        match cur with
        | none => assembleGo ivs tl ws2 (some sp) w.text w.start acc
        | some c =>
          assembleGo ivs tl ws2 (some sp) w.text w.start
            (acc ++ [⟨st, c, pyStrip txt⟩]) := by
  rw [assembleGo, hsp]

/-- Invariant of the assembly loop: it succeeds, extends the flushed
lines, and its new text is the pending-plus-remaining text with each
flushed run stripped. -/
theorem assembleGo_text (ivs : List (ℚ × ℚ)) (tl : List Obs)
    (htl : tl ≠ []) :
    ∀ (ws : List TWord) (cur : Option Label) (txt : Label) (st : ℚ)
      (acc : List TLine), (cur = none → txt = []) →
      ∃ lines suff, assembleGo ivs tl ws cur txt st acc = some lines ∧
        lines.map TLine.text = acc.map TLine.text ++ suff ∧
        List.Sublist suff.flatten (txt ++ wordsText ws) ∧
        suff.flatten.filter (fun c => !isWsChar c) =
          (txt ++ wordsText ws).filter fun c => !isWsChar c := by
  intro ws
  induction ws with
  | nil =>
    intro cur txt st acc hcur
    cases cur with
    | none =>
      refine ⟨acc, [], rfl, by simp, ?_, ?_⟩
      · rw [hcur rfl]; simp [wordsText]
      · rw [hcur rfl]; simp [wordsText]
    | some sp =>
      refine ⟨acc ++ [⟨st, sp, pyStrip txt⟩], [pyStrip txt],
        by rw [assembleGo], ?_, ?_, ?_⟩
      · simp
      · simpa [wordsText] using pyStrip_sublist txt
      · simpa [wordsText] using pyStrip_filter txt
  | cons w ws2 ih =>
    intro cur txt st acc hcur
    rcases get_current_speaker_isSome w.start ivs tl htl with ⟨sp, hsp⟩
    have hwords : wordsText (w :: ws2) = w.text ++ wordsText ws2 := by
      simp [wordsText]
    by_cases hceq : cur = some sp
    · rcases ih cur (txt ++ w.text) st acc (by rw [hceq]; intro h; cases h)
        with ⟨lines, suff, hrun, hmap, hsub, hfil⟩
      refine ⟨lines, suff, ?_, hmap, ?_, ?_⟩
      · rw [assembleGo_cons ivs tl w ws2 cur txt st acc sp hsp, if_pos hceq]
        exact hrun
      · rw [hwords, ← List.append_assoc]
        exact hsub
      · rw [hwords, ← List.append_assoc]
        exact hfil
    · cases cur with
      | none =>
        rcases ih (some sp) w.text w.start acc (by intro h; cases h)
          with ⟨lines, suff, hrun, hmap, hsub, hfil⟩
        refine ⟨lines, suff, ?_, hmap, ?_, ?_⟩
        · rw [assembleGo_cons ivs tl w ws2 none txt st acc sp hsp,
            if_neg hceq]
          exact hrun
        · rw [hcur rfl, hwords]
          simpa using hsub
        · rw [hcur rfl, hwords]
          simpa using hfil
      | some c =>
        rcases ih (some sp) w.text w.start (acc ++ [⟨st, c, pyStrip txt⟩])
          (by intro h; cases h)
          with ⟨lines, suff, hrun, hmap, hsub, hfil⟩
        refine ⟨lines, pyStrip txt :: suff, ?_, ?_, ?_, ?_⟩
        · rw [assembleGo_cons ivs tl w ws2 (some c) txt st acc sp hsp,
            if_neg hceq]
          exact hrun
        · rw [hmap]
          simp
        · rw [hwords, List.flatten_cons]
          exact List.Sublist.append (pyStrip_sublist txt) hsub
        · rw [hwords, List.flatten_cons, List.filter_append,
            pyStrip_filter, hfil]
          simp [List.filter_append, List.append_assoc]

/-- Claim C2 counterexample: one word `" Hi"` under one speaker — the
flushed run is stripped, so the assembled text `"Hi"` differs from the
word-text concatenation `" Hi"`. -/
theorem assemble_text_counterexample :
    assemble [⟨0, 1, " Hi".toList⟩] [] [⟨0, "Ab Cd".toList⟩] =
      some [⟨0, "Ab Cd".toList, "Hi".toList⟩] ∧
    linesText [⟨0, "Ab Cd".toList, "Hi".toList⟩] ≠
      wordsText [⟨0, 1, " Hi".toList⟩] := by decide

/-- Claim C2 (amended): with a non-empty cleaned timeline, assembly
succeeds and the concatenated line texts reproduce the concatenated word
texts up to the stripping of whitespace at speaker-run boundaries: a
subsequence with exactly the same non-whitespace characters in the same
order. -/
theorem assemble_text (ws : List TWord) (ivs : List (ℚ × ℚ))
    (tl : List Obs) (htl : tl ≠ []) :
    ∃ lines, assemble ws ivs tl = some lines ∧
      List.Sublist (linesText lines) (wordsText ws) ∧
      (linesText lines).filter (fun c => !isWsChar c) =
        (wordsText ws).filter fun c => !isWsChar c := by
  rcases assembleGo_text ivs tl htl ws none [] 0 [] (fun _ => rfl)
    with ⟨lines, suff, hrun, hmap, hsub, hfil⟩
  rw [List.map_nil, List.nil_append] at hmap
  refine ⟨lines, hrun, ?_, ?_⟩
  · rw [linesText, hmap]
    simpa using hsub
  · rw [linesText, hmap]
    simpa using hfil

/-- Witness for `assemble_text` at a concrete input. -/
theorem assemble_text_witness :
    ([⟨0, "Ab Cd".toList⟩] : List Obs) ≠ [] ∧
    ∃ lines, assemble [⟨0, 1, " Hi".toList⟩] [] [⟨0, "Ab Cd".toList⟩] =
        some lines ∧
      List.Sublist (linesText lines) (wordsText [⟨0, 1, " Hi".toList⟩]) ∧
      (linesText lines).filter (fun c => !isWsChar c) =
        (wordsText [⟨0, 1, " Hi".toList⟩]).filter fun c => !isWsChar c :=
  ⟨by decide,
    assemble_text [⟨0, 1, " Hi".toList⟩] [] [⟨0, "Ab Cd".toList⟩]
      (by decide)⟩

/-! ## Claim C10 — the summarizer adapter

`summarize_transcript` performs its single exchange and then raises for
a 4xx/5xx status; but it also raises when the body cannot be parsed or
lacks the `choices[0].message.content` path, and what it returns is that
content value, not the whole response text.  The transcript artifact is
written before the summarization attempt and is untouched by its
failure. -/

/-- Claim C10 counterexample: a 200-status response whose JSON body
lacks the expected path still raises, so "raises exactly when the
endpoint responds with a non-success status" is false. -/
theorem summarize_transcript_counterexample :
    summarize_transcript [] ⟨[], [], true, [], [], [], [], []⟩
        (fun _ => ⟨200, some (Json.jobj [])⟩) =
      .error .malformedResponse ∧ (200 : ℕ) < 400 := by
  constructor
  · rfl
  · decide

/-- Claim C10 (amended): the single-exchange adapter fails exactly when
the status is 4xx/5xx (yielding that status) or the body lacks the
content path; otherwise it returns the content value verbatim.  A
summarization failure after a successful assembly leaves the
already-written transcript artifact in place, readable with the
assembled lines, and surfaces the error. -/
theorem summarize_transcript_spec (tr : Label) (cfg : Settings)
    (http : HttpRequest → HttpResponse) (tl : List Obs) (segs : List Seg)
    (ws : List TWord) (fs : FS) (lines : List TLine) (e : PErr) :
    ((400 ≤ (http (buildRequest tr cfg)).status ∧
        (http (buildRequest tr cfg)).status < 600) →
      summarize_transcript tr cfg http =
        .error (.httpError (http (buildRequest tr cfg)).status)) ∧
    (¬ (400 ≤ (http (buildRequest tr cfg)).status ∧
        (http (buildRequest tr cfg)).status < 600) →
      ((http (buildRequest tr cfg)).body.bind extractContent = none →
        summarize_transcript tr cfg http = .error .malformedResponse) ∧
      (∀ v, (http (buildRequest tr cfg)).body.bind extractContent = some v →
        summarize_transcript tr cfg http = .ok v)) ∧
    (cfg.summarize = true →
      assemble ws (extract_speech_intervals segs ws) tl = some lines →
      summarize_transcript (fullTranscript lines) cfg http = .error e →
      transcribe_with_speakers cfg tl segs ws http fs =
          (writeF fs cfg.transcriptName (.transcriptF lines), .error e) ∧
        readF (transcribe_with_speakers cfg tl segs ws http fs).1
          cfg.transcriptName = some (.transcriptF lines)) := by
  refine ⟨?_, ?_, ?_⟩
  · intro hbad
    rw [summarize_transcript, raise_for_status, if_pos hbad]
  · intro hok
    constructor
    · intro hnone
      rw [summarize_transcript, raise_for_status, if_neg hok]
      cases hb : (http (buildRequest tr cfg)).body with
      | none => rfl
      | some j =>
        rw [hb, Option.some_bind] at hnone
        simp only [hnone]
    · intro v hv
      rw [summarize_transcript, raise_for_status, if_neg hok]
      cases hb : (http (buildRequest tr cfg)).body with
      | none => rw [hb, Option.none_bind] at hv; cases hv
      | some j =>
        rw [hb, Option.some_bind] at hv
        simp only [hv]
  · intro hsum hasm hfail
    have hres : transcribe_with_speakers cfg tl segs ws http fs =
        (writeF fs cfg.transcriptName (.transcriptF lines), .error e) := by
      rw [transcribe_with_speakers, hasm]
      simp only [hsum, if_true, hfail]
    refine ⟨hres, ?_⟩
    rw [hres]
    simp [readF, writeF]

/-- Witness for `summarize_transcript_spec` at a concrete input: an
unreachable endpoint answering 500 fails the summary while the
transcript write survives. -/
theorem summarize_transcript_spec_witness :
    (⟨[], [], true, [], [], [], [], []⟩ : Settings).summarize = true ∧
    assemble [] (extract_speech_intervals [] []) [⟨0, "Ab".toList⟩] =
      some [] ∧
    summarize_transcript (fullTranscript [])
        ⟨[], [], true, [], [], [], [], []⟩ (fun _ => ⟨500, none⟩) =
      .error (.httpError 500) ∧
    transcribe_with_speakers ⟨[], [], true, [], [], [], [], []⟩
        [⟨0, "Ab".toList⟩] [] [] (fun _ => ⟨500, none⟩) [] =
      (writeF [] [] (.transcriptF []), .error (.httpError 500)) :=
  ⟨rfl, rfl, rfl,
    ((summarize_transcript_spec (fullTranscript [])
        ⟨[], [], true, [], [], [], [], []⟩ (fun _ => ⟨500, none⟩)
        [⟨0, "Ab".toList⟩] [] [] [] [] (.httpError 500)).2.2
      rfl rfl rfl).1⟩

/-! ## Claim C8 — the name-shape validator

The automaton is proved equivalent to the declarative `NameShape`; the
claim's own wording `ClaimNameShape` differs precisely on joined words
with an empty lowercase tail (`"Jean-P Sartre"`), which the regex
rejects. -/

/-- Separator characters are not lowercase letters. -/
theorem sep_not_lower (c : Char) (h : isNameSep c = true) :
    isLowerAlpha c = false := by
  simp only [isNameSep, Bool.or_eq_true, decide_eq_true_eq] at h
  simp only [isLowerAlpha, Bool.or_eq_false_iff, Bool.and_eq_false_iff,
    decide_eq_false_iff_not, not_le]
  omega

/-- Whitespace characters are not lowercase letters. -/
theorem ws_not_lower (c : Char) (h : isWsChar c = true) :
    isLowerAlpha c = false := by
  simp only [isWsChar, Bool.or_eq_true, Bool.and_eq_true,
    decide_eq_true_eq] at h
  simp only [isLowerAlpha, Bool.or_eq_false_iff, Bool.and_eq_false_iff,
    decide_eq_false_iff_not, not_le]
  omega

/-- Whitespace characters are not separators. -/
theorem ws_not_sep (c : Char) (h : isWsChar c = true) :
    isNameSep c = false := by
  simp only [isWsChar, Bool.or_eq_true, Bool.and_eq_true,
    decide_eq_true_eq] at h
  simp only [isNameSep, Bool.or_eq_false_iff, decide_eq_false_iff_not]
  omega

/-- In state `body`, a lowercase run is consumed staying in `body`. -/
theorem nameRun_lowers :
    ∀ (ls rest : List Char) (s2 : Bool), AllLower ls →
      nameRun (ls ++ rest) NState.body s2 = nameRun rest NState.body s2 := by
  intro ls
  induction ls with
  | nil => intro rest s2 _; rfl
  | cons c ls2 ih =>
    intro rest s2 hall
    have hc : isLowerAlpha c = true := hall c (List.mem_cons_self c ls2)
    rw [List.cons_append, nameRun, if_pos hc]
    exact ih rest s2 fun x hx => hall x (List.mem_cons_of_mem c hx)

/-- In state `body`, a sequence of join groups is consumed staying in
`body`. -/
theorem nameRun_joins :
    ∀ (ps : List (List Char)) (rest : List Char) (s2 : Bool),
      (∀ p ∈ ps, JoinShape p) →
      nameRun (ps.flatten ++ rest) NState.body s2 =
        nameRun rest NState.body s2 := by
  intro ps
  induction ps with
  | nil => intro rest s2 _; rfl
  | cons p ps2 ih =>
    intro rest s2 hall
    rcases hall p (List.mem_cons_self p ps2) with ⟨s, u, l, ls, hs, hu, hl, hls, rfl⟩
    rw [List.flatten_cons, List.append_assoc]
    rw [List.cons_append, List.cons_append, List.cons_append]
    rw [nameRun, if_neg (by rw [sep_not_lower s hs]; exact Bool.false_ne_true),
      if_pos hs]
    rw [nameRun, if_pos hu]
    rw [nameRun, if_pos hl]
    rw [nameRun_lowers ls _ s2 hls]
    exact ih rest s2 fun x hx => hall x (List.mem_cons_of_mem _ hx)

/-- From `tok0`, a whole token is consumed, ending in `body`. -/
theorem nameRun_token (t : List Char) (ht : TokenShape t) :
    ∀ (rest : List Char) (s2 : Bool),
      nameRun (t ++ rest) NState.tok0 s2 = nameRun rest NState.body s2 := by
  rcases ht with ⟨u, ls, ps, hu, hls, hps, rfl⟩
  intro rest s2
  rw [List.cons_append, nameRun, if_pos hu]
  rw [List.append_assoc]
  rw [nameRun_lowers ls _ s2 hls]
  rw [nameRun_joins ps rest s2 hps]

/-- Token chains are accepted, provided a separator was already seen or
the chain has at least two tokens. -/
theorem chain_accept :
    ∀ {cs : List Char} {n : ℕ}, ChainTokens cs n →
      ∀ s2 : Bool, (s2 = true ∨ 2 ≤ n) →
        nameRun cs NState.tok0 s2 = true := by
  intro cs n h
  induction h with
  | single ht =>
    intro s2 hs2
    rcases hs2 with hs2 | hs2
    · subst hs2
      have h2 := nameRun_token _ ht [] true
      rw [List.append_nil] at h2
      rw [h2]
      rfl
    · omega
  | cons ht hw _ ih =>
    intro s2 _
    rw [nameRun_token _ ht]
    rw [nameRun,
      if_neg (by rw [ws_not_lower _ hw]; exact Bool.false_ne_true),
      if_neg (by rw [ws_not_sep _ hw]; exact Bool.false_ne_true),
      if_pos hw]
    exact ih true (Or.inl rfl)

/-- Decomposition of a successful run from state `body`: a lowercase
run, a sequence of join groups, then either the end of input (with the
two-token flag set) or a whitespace and a further accepted run. -/
theorem body_peel :
    ∀ (N : ℕ) (cs : List Char), cs.length ≤ N → ∀ s2 : Bool,
      nameRun cs NState.body s2 = true →
      ∃ (ls : List Char) (ps : List (List Char)) (rest : List Char),
        AllLower ls ∧ (∀ p ∈ ps, JoinShape p) ∧
        cs = ls ++ ps.flatten ++ rest ∧
        ((rest = [] ∧ s2 = true) ∨
          ∃ w rest2, rest = w :: rest2 ∧ isWsChar w = true ∧
            nameRun rest2 NState.tok0 true = true) := by
  intro N
  induction N with
  | zero =>
    intro cs hlen s2 hrun
    have hnil : cs = [] := List.eq_nil_of_length_eq_zero (Nat.le_zero.mp hlen)
    subst hnil
    refine ⟨[], [], [], ?_, ?_, rfl, Or.inl ⟨rfl, ?_⟩⟩
    · intro c hc; cases hc
    · intro pp hp; cases hp
    · simpa [nameRun] using hrun
  | succ N ih =>
    intro cs hlen s2 hrun
    cases cs with
    | nil =>
      refine ⟨[], [], [], ?_, ?_, rfl, Or.inl ⟨rfl, ?_⟩⟩
      · intro c hc; cases hc
      · intro pp hp; cases hp
      · simpa [nameRun] using hrun
    | cons c cs2 =>
      simp only [nameRun] at hrun
      by_cases hlow : isLowerAlpha c = true
      · rw [if_pos hlow] at hrun
        rcases ih cs2 (by simp at hlen; omega) s2 hrun with
          ⟨ls2, ps2, rest, h1, h2, heq, hres⟩
        refine ⟨c :: ls2, ps2, rest, ?_, h2, ?_, hres⟩
        · intro x hx
          rcases List.mem_cons.mp hx with rfl | hx2
          · exact hlow
          · exact h1 x hx2
        · simp [heq, List.append_assoc]
      · rw [if_neg hlow] at hrun
        by_cases hsep : isNameSep c = true
        · rw [if_pos hsep] at hrun
          cases cs2 with
          | nil => simp [nameRun] at hrun
          | cons c2 cs3 =>
            simp only [nameRun] at hrun
            by_cases hu : isUpperAlpha c2 = true
            · rw [if_pos hu] at hrun
              cases cs3 with
              | nil => simp [nameRun] at hrun
              | cons c3 cs4 =>
                simp only [nameRun] at hrun
                by_cases hl : isLowerAlpha c3 = true
                · rw [if_pos hl] at hrun
                  rcases ih cs4 (by simp at hlen; omega) s2 hrun with
                    ⟨ls4, ps4, rest, h1, h2, heq, hres⟩
                  refine ⟨[], (c :: c2 :: c3 :: ls4) :: ps4, rest, ?_, ?_,
                    ?_, hres⟩
                  · intro x hx; cases hx
                  · intro pp hp
                    rcases List.mem_cons.mp hp with rfl | hp2
                    · exact ⟨c, c2, c3, ls4, hsep, hu, hl, h1, rfl⟩
                    · exact h2 pp hp2
                  · simp [heq, List.append_assoc]
                · rw [if_neg hl] at hrun; cases hrun
            · rw [if_neg hu] at hrun; cases hrun
        · rw [if_neg hsep] at hrun
          by_cases hws : isWsChar c = true
          · rw [if_pos hws] at hrun
            exact ⟨[], [], c :: cs2, fun x hx => absurd hx (List.not_mem_nil x),
              fun pp hp => absurd hp (List.not_mem_nil pp), by simp,
              Or.inr ⟨c, cs2, rfl, hws, hrun⟩⟩
          · rw [if_neg hws] at hrun; cases hrun

/-- Decomposition of a successful run from state `tok0`: one full token,
then end of input or a whitespace and a further accepted run. -/
theorem token_peel (cs : List Char) (s2 : Bool)
    (hrun : nameRun cs NState.tok0 s2 = true) :
    ∃ t rest, TokenShape t ∧ cs = t ++ rest ∧
      ((rest = [] ∧ s2 = true) ∨
        ∃ w rest2, rest = w :: rest2 ∧ isWsChar w = true ∧
          nameRun rest2 NState.tok0 true = true) := by
  cases cs with
  | nil => simp [nameRun] at hrun
  | cons c cs2 =>
    simp only [nameRun] at hrun
    by_cases hu : isUpperAlpha c = true
    · rw [if_pos hu] at hrun
      rcases body_peel cs2.length cs2 le_rfl s2 hrun with
        ⟨ls, ps, rest, h1, h2, heq, hres⟩
      exact ⟨c :: (ls ++ ps.flatten), rest, ⟨c, ls, ps, hu, h1, h2, rfl⟩,
        by simp [heq, List.append_assoc], hres⟩
    · rw [if_neg hu] at hrun; cases hrun

/-- Token chains are nonempty. -/
theorem chain_pos {cs : List Char} {n : ℕ} (h : ChainTokens cs n) :
    1 ≤ n := by
  cases h with
  | single _ => omega
  | cons _ _ _ => omega

/-- A string accepted from `tok0` is a token chain; if the two-token
flag was still clear, the chain has at least two tokens. -/
theorem accept_chain :
    ∀ (N : ℕ) (cs : List Char), cs.length ≤ N → ∀ s2 : Bool,
      nameRun cs NState.tok0 s2 = true →
      ∃ n, ChainTokens cs n ∧ (s2 = true ∨ 2 ≤ n) := by
  intro N
  induction N with
  | zero =>
    intro cs hlen s2 hrun
    have hnil : cs = [] := List.eq_nil_of_length_eq_zero (Nat.le_zero.mp hlen)
    subst hnil
    simp [nameRun] at hrun
  | succ N ih =>
    intro cs hlen s2 hrun
    rcases token_peel cs s2 hrun with ⟨t, rest, ht, rfl, hres⟩
    rcases hres with ⟨hrnil, hs2⟩ | ⟨w, rest2, hrw, hw, hrun2⟩
    · subst hrnil
      exact ⟨1, by rw [List.append_nil]; exact ChainTokens.single ht,
        Or.inl hs2⟩
    · subst hrw
      have htne : t ≠ [] := by
        rcases ht with ⟨u, ls, ps, _, _, _, rfl⟩; simp
      have hlen2 : rest2.length ≤ N := by
        have h1 := List.length_append t (w :: rest2)
        have h2 : 1 ≤ t.length := List.length_pos.mpr htne
        simp only [List.length_cons] at h1
        omega
      rcases ih rest2 hlen2 true hrun2 with ⟨n2, hch2, _⟩
      exact ⟨n2 + 1, ChainTokens.cons ht hw hch2,
        Or.inr (by have := chain_pos hch2; omega)⟩

/-- The validator accepts exactly the `NameShape` strings. -/
theorem is_valid_name_NameShape (cs : List Char) :
    is_valid_name cs = true ↔ NameShape cs := by
  constructor
  · intro h
    rcases accept_chain cs.length cs le_rfl false h with ⟨n, hch, hor⟩
    rcases hor with h2 | h2
    · exact absurd h2 Bool.false_ne_true
    · exact ⟨n, h2, hch⟩
  · intro h
    rcases h with ⟨n, h2, hch⟩
    exact chain_accept hch false (Or.inr h2)

/-- Coercion into `AllLower`. -/
theorem allLower_of_forall {ls : List Char}
    (h : ∀ c ∈ ls, isLowerAlpha c = true) : AllLower ls := h

/-- Claim C8 counterexample: `"Jean-P Sartre"` has the claim's token
shape (each token a capitalized word, optionally hyphen-joined to
another capitalized word), yet the validator rejects it, because the
regex demands a nonempty lowercase tail after a join. -/
theorem is_valid_name_counterexample :
    is_valid_name "Jean-P Sartre".toList = false ∧
      ClaimNameShape "Jean-P Sartre".toList := by
  refine ⟨by decide, 2, le_refl 2, ?_⟩
  have hdecomp : "Jean-P Sartre".toList =
      "Jean-P".toList ++ ' ' :: "Sartre".toList := by decide
  rw [hdecomp]
  refine ChainTokensWeak.cons ?_ (by decide) (ChainTokensWeak.single ?_)
  · refine ⟨'J', "ean".toList, [['-', 'P']], by decide,
      allLower_of_forall (by decide), ?_, by decide⟩
    intro pp hp
    rcases List.mem_singleton.mp hp with rfl
    exact ⟨'-', 'P', [], by decide, by decide,
      allLower_of_forall (by decide), rfl⟩
  · exact ⟨'S', "artre".toList, [], by decide,
      allLower_of_forall (by decide),
      fun pp hp => absurd hp (List.not_mem_nil pp), by decide⟩

/-- Claim C8 (amended): the validator accepts `"Jean-Paul Sartre"` and
`"Ana María López"` and rejects `"hello world"`, `"A"` and
`"JOHN SMITH"`; in general it accepts exactly the strings of at least
two single-whitespace-separated tokens, each a capitalized word
(uppercase first letter, lowercase — possibly accented — remainder)
optionally hyphen- or apostrophe-joined to further capitalized words
whose lowercase tail is nonempty. -/
theorem is_valid_name_spec :
    is_valid_name "Jean-Paul Sartre".toList = true ∧
    is_valid_name "Ana María López".toList = true ∧
    is_valid_name "hello world".toList = false ∧
    is_valid_name "A".toList = false ∧
    is_valid_name "JOHN SMITH".toList = false ∧
    ∀ cs, is_valid_name cs = true ↔ NameShape cs :=
  ⟨by decide, by decide, by decide, by decide, by decide,
    fun cs => is_valid_name_NameShape cs⟩
